import Mathlib

/-!
Verification of the NeRF coordinate-reconstruction core of the
protein-transformer repository, as a shallow embedding over exact real
arithmetic.

Embedded sources:
- src/transformer/Structure.py : generate_coords, init_sidechain,
  init_backbone, extend_backbone, l2_normalize, nerf.
- src/scripts/data_aq.py : getDihedral.

The torch `device` arguments are dropped: both the cuda and the cpu
branch of the source compute the same numeric values.  Python indexing
errors (IndexError on an out-of-range tensor row, ArithmeticError in
getDihedral) are modelled with Option.  The external module `Sidechains`
(imported by Structure.py but not present in the sources) is modelled
from the spec as an explicit function parameter, see `SCExt` below.
-/

noncomputable section

/-- A 3-component real vector: one atom position in the shared Cartesian
frame. -/
@[ext]
structure V3 where
  x : ℝ
  y : ℝ
  z : ℝ

instance : Add V3 := ⟨fun u v => ⟨u.x + v.x, u.y + v.y, u.z + v.z⟩⟩

instance : Sub V3 := ⟨fun u v => ⟨u.x - v.x, u.y - v.y, u.z - v.z⟩⟩

instance : Neg V3 := ⟨fun v => ⟨-v.x, -v.y, -v.z⟩⟩

/-- Scalar multiple of a vector; `scale s⁻¹ v` models the source's
division of a vector by the scalar `s`. -/
def scale (k : ℝ) (v : V3) : V3 := ⟨k * v.x, k * v.y, k * v.z⟩

/-- Dot product, `(u * v).sum(-1)` in the source. -/
def dot (u v : V3) : ℝ := u.x * v.x + u.y * v.y + u.z * v.z

/-- Standard 3D cross product (`torch.cross` / `np.cross` on
3-vectors). -/
def cross (u v : V3) : V3 :=
  ⟨u.y * v.z - u.z * v.y, u.z * v.x - u.x * v.z, u.x * v.y - u.y * v.x⟩

/-- Squared Euclidean norm, `(t ** 2).sum()` in the source. -/
def normSq (v : V3) : ℝ := dot v v

/-- Euclidean norm. -/
def norm3 (v : V3) : ℝ := Real.sqrt (normSq v)

/-- True normalization `v / |v|`; this is exactly the normalization
`v1 / (v1 * v1).sum(-1) ** 0.5` used (without epsilon guard) inside
`getDihedral` of data_aq.py. -/
def unitV (v : V3) : V3 := scale (norm3 v)⁻¹ v

/-- `l2_normalize` of Structure.py:
`t / torch.sqrt(torch.max((t ** 2).sum(), epsilon))` with the default
`eps = 1e-12`.  Note the epsilon floor is applied to the squared norm,
under the square root. -/
def l2_normalize (t : V3) : V3 :=
  scale (Real.sqrt (max (normSq t) 1e-12))⁻¹ t

/-- `nerf` of Structure.py.  `M` has columns `x_hat, y_hat, z_hat`
(`torch.stack([x_hat, y_hat, z_hat], dim=1)`), so
`M @ d = d.x * x_hat + d.y * y_hat + d.z * z_hat`. -/
def nerf (a b c : V3) (l theta chi : ℝ) : V3 :=
  let W_hat := l2_normalize (b - a)
  let x_hat := l2_normalize (c - b)
  let n_unit := cross W_hat x_hat
  let z_hat := l2_normalize n_unit
  let y_hat := cross z_hat x_hat
  let dx := -l * Real.cos theta
  let dy := l * Real.sin theta * Real.cos chi
  let dz := l * Real.sin theta * Real.sin chi
  c + (scale dx x_hat + scale dy y_hat + scale dz z_hat)

/-- One row of the `(L x 11)` angle tensor.  Only columns 0..5 are read
by the backbone code: 0 = phi, 1 = psi, 2 = omega, 3 = N-Ca-C bond
angle, 4 = Ca-C-N bond angle, 5 = C-N-Ca bond angle.  Columns 6..10
(side-chain dihedrals) are consumed only by the external `Sidechains`
module, which is modelled as an opaque function parameter, so they are
not represented here.  A row access `angles[i, k]` in the source fails
exactly when row `i` is out of range, which the embedding models by
`List.get?` on the list of rows. -/
structure AngleRow where
  phi : ℝ
  psi : ℝ
  omega : ℝ
  theta_ncac : ℝ
  theta_cacn : ℝ
  theta_cnca : ℝ

/-- `init_backbone` of Structure.py.  `a1 = zeros`, `a2 = a1 + (1.442,
0, 0)`, `a3 = (cos(pi - angles[0,3]) * 1.498, sin(pi - angles[0,3]) *
1.498, 0)` (note: measured from the origin, not from `a2`). -/
def init_backbone (angles : List AngleRow) : Option (List V3) := do
  let row0 ← angles.get? 0
  let a1 : V3 := ⟨0, 0, 0⟩
  let a2 : V3 := ⟨1.442, 0, 0⟩
  let a3 : V3 := ⟨Real.cos (Real.pi - row0.theta_ncac) * 1.498,
                  Real.sin (Real.pi - row0.theta_ncac) * 1.498, 0⟩
  pure [a1, a2, a3]

/-- `init_sidechain` of Structure.py: a TODO stub that ignores both
arguments and returns the singleton list holding the zero vector. -/
def init_sidechain (angles : List AngleRow) (backbone : List V3) : List V3 :=
  [⟨0, 0, 0⟩]

/-- `extend_backbone` of Structure.py.  For j = 0, 1, 2 it places N, Ca,
C of residue `i`.  The three context atoms `p3 = coords[-3]`,
`p2 = coords[-2]`, `p1 = coords[-1]` are read from the `coords` list,
which is never modified inside the loop, so all three placements use the
same context triple. -/
def extend_backbone (i : ℕ) (angles : List AngleRow) (coords : List V3) :
    Option (List V3) := do
  let rowi ← angles.get? i
  let rowp ← angles.get? (i - 1)
  let p3 ← coords.reverse.get? 2
  let p2 ← coords.reverse.get? 1
  let p1 ← coords.reverse.get? 0
  let n := nerf p3 p2 p1 1.379 rowi.theta_cacn rowp.psi
  let ca := nerf p3 p2 p1 1.442 rowi.theta_cnca rowp.omega
  let cc := nerf p3 p2 p1 1.498 rowi.theta_ncac rowi.phi
  pure [n, ca, cc]

/-- Modelled from the spec: the type of the side-chain extender
`Sidechains.extend_sidechain(i, angles, bb_arr, sc_arr, input_seq)`.
The module `Sidechains` imported by Structure.py is not among the
repository sources given, so per the spec it is treated as an external
collaborator: a function from the residue index, the angle rows, the
backbone coordinates so far, the side-chain coordinates so far and the
amino-acid sequence (of arbitrary type `σ`) to the residue's new
side-chain atoms, failing (Option) on contract violations.  All theorems
below either quantify over this parameter or instantiate it with
`extEmpty`. -/
def SCExt (σ : Type) : Type :=
  ℕ → List AngleRow → List V3 → List V3 → σ → Option (List V3)

/-- Modelled from the spec: the zero-length side-chain extension, which
the spec prescribes for residue types whose geometry template maps to
the empty atom list (for example glycine). -/
def extEmpty : SCExt Unit := fun _ _ _ _ _ => some []

/-- One iteration of the `for i in range(1, pad_loc)` loop of
`generate_coords`: extend the backbone (reading the current `bb_arr`),
append, then extend the side chain (reading the updated `bb_arr` and the
current `sc_arr`), append. -/
def chain_step {σ : Type} (ext : SCExt σ) (angles : List AngleRow) (seq : σ)
    (i : ℕ) (st : List V3 × List V3) : Option (List V3 × List V3) := do
  let pts ← extend_backbone i angles st.1
  let bb2 := st.1 ++ pts
  let scp ← ext i angles bb2 st.2 seq
  pure (bb2, st.2 ++ scp)

/-- State of `(bb_arr, sc_arr)` after the loop of `generate_coords` has
processed residues 1..k (k = 0 is the state right after
`init_backbone` / `init_sidechain`). -/
def chain_arrs {σ : Type} (ext : SCExt σ) (angles : List AngleRow) (seq : σ) :
    ℕ → Option (List V3 × List V3)
  | 0 => (init_backbone angles).map (fun bb => (bb, init_sidechain angles bb))
  | Nat.succ k =>
      (chain_arrs ext angles seq k).bind (chain_step ext angles seq (k + 1))

/-- `generate_coords` of Structure.py: run the loop for
`i in range(1, pad_loc)` and return `bb_arr + sc_arr` (all backbone
atoms, then all side-chain atoms). -/
def generate_coords {σ : Type} (ext : SCExt σ) (angles : List AngleRow)
    (pad_loc : ℕ) (input_seq : σ) : Option (List V3) :=
  (chain_arrs ext angles input_seq (pad_loc - 1)).map (fun st => st.1 ++ st.2)

/-- `getDihedral` of data_aq.py.  True (epsilon-free) normalization of
the two plane normals, `porm = np.sign((v1 * a3).sum(-1))`, and the
clamped arccos input; the final `ArithmeticError` branch is `none`. -/
def getDihedral (c1 c2 c3 c4 : V3) (radian : Bool) : Option ℝ :=
  let a1 := c2 - c1
  let a2 := c3 - c2
  let a3 := c4 - c3
  let v1 := unitV (cross a1 a2)
  let v2 := unitV (cross a2 a3)
  let porm := Real.sign (dot v1 a3)
  let raw := dot v1 v2 / Real.sqrt (normSq v1 * normSq v2)
  let inp : Option ℝ :=
    if -1 ≤ raw ∧ raw ≤ 1 then some raw
    else if 1 < raw ∧ raw - 1 < 1e-6 then some 1
    else if raw < -1 ∧ |raw| - 1 < 1e-6 then some (-1)
    else none
  Option.map (fun q =>
    let rad := Real.arccos q
    let rad2 := if porm = 0 then rad else rad * porm
    if radian then rad2 else rad2 * (180 / Real.pi)) inp

/-- The local frame of the NeRF step as the specification words it:
`x_hat = normalize(c - b)` with true normalization. -/
def frameX (b c : V3) : V3 := unitV (c - b)

/-- The spec's `z_hat = normalize((b - a) x x_hat)` (true
normalization). -/
def frameZ (a b c : V3) : V3 := unitV (cross (b - a) (frameX b c))

/-- The spec's `y_hat = z_hat x x_hat`. -/
def frameY (a b c : V3) : V3 := cross (frameZ a b c) (frameX b c)

/-- The NeRF placement step exactly as claim C1 / spec section 4.2 word
it: `d = c + M * (-l cos theta, l sin theta cos chi, l sin theta sin
chi)` where `M` has columns `frameX, frameY, frameZ` built with true
normalization. -/
def nerfSpec (a b c : V3) (l theta chi : ℝ) : V3 :=
  c + (scale (-l * Real.cos theta) (frameX b c)
     + scale (l * Real.sin theta * Real.cos chi) (frameY a b c)
     + scale (l * Real.sin theta * Real.sin chi) (frameZ a b c))

/-- The normalization primitive exactly as claim C8 / spec section 4.1
word it: `v / max(|v|, eps)` with `eps = 1e-12` applied to the norm
itself. -/
def spec_normalize (v : V3) : V3 := scale (max (norm3 v) 1e-12)⁻¹ v

/-- The per-residue interleaved emission that claim C5 asserts: the same
per-residue recursion as `chain_arrs`, additionally accumulating (third
component) the output in the order residue-0 backbone, residue-0 side
chain, residue-1 backbone, residue-1 side chain, ... -/
def chain_inter {σ : Type} (ext : SCExt σ) (angles : List AngleRow) (seq : σ) :
    ℕ → Option (List V3 × List V3 × List V3)
  | 0 => (init_backbone angles).map
      (fun bb => (bb, init_sidechain angles bb,
                  bb ++ init_sidechain angles bb))
  | Nat.succ k => (chain_inter ext angles seq k).bind (fun st => do
      let pts ← extend_backbone (k + 1) angles st.1
      let bb2 := st.1 ++ pts
      let scp ← ext (k + 1) angles bb2 st.2.1 seq
      pure (bb2, st.2.1 ++ scp, st.2.2 ++ pts ++ scp))

/-- The output order claim C5 asserts for `generate_coords`: each
residue's backbone atoms immediately followed by that residue's
side-chain atoms. -/
def generate_coords_interleaved {σ : Type} (ext : SCExt σ)
    (angles : List AngleRow) (pad_loc : ℕ) (input_seq : σ) :
    Option (List V3) :=
  (chain_inter ext angles input_seq (pad_loc - 1)).map (fun st => st.2.2)

/-- Concrete angle row: all torsions 0, all bond-angle slots pi / 2. -/
def rowEx : AngleRow := ⟨0, 0, 0, Real.pi / 2, Real.pi / 2, Real.pi / 2⟩

/-- Concrete angle row with every entry pi (keeps all placements
rational: cos pi = -1, sin pi = 0). -/
def rowPi : AngleRow :=
  ⟨Real.pi, Real.pi, Real.pi, Real.pi, Real.pi, Real.pi⟩

/-- Concrete non-degenerate context triple for the extender: the last
three placed atoms (0,0,0), (1,0,0), (1,1,0). -/
def coordsEx : List V3 := [⟨0, 0, 0⟩, ⟨1, 0, 0⟩, ⟨1, 1, 0⟩]

@[simp]
theorem V3.add_def (u v : V3) : u + v = ⟨u.x + v.x, u.y + v.y, u.z + v.z⟩ := rfl

@[simp]
theorem V3.sub_def (u v : V3) : u - v = ⟨u.x - v.x, u.y - v.y, u.z - v.z⟩ := rfl

@[simp]
theorem V3.neg_def (v : V3) : -v = ⟨-v.x, -v.y, -v.z⟩ := rfl

theorem normSq_nonneg (v : V3) : 0 ≤ normSq v := by
  unfold normSq dot
  nlinarith [mul_self_nonneg v.x, mul_self_nonneg v.y, mul_self_nonneg v.z]

theorem norm3_nonneg (v : V3) : 0 ≤ norm3 v := Real.sqrt_nonneg _

theorem mul_self_norm3 (v : V3) : norm3 v * norm3 v = normSq v :=
  Real.mul_self_sqrt (normSq_nonneg v)

theorem norm3_pos (v : V3) (h : 0 < normSq v) : 0 < norm3 v :=
  Real.sqrt_pos.mpr h

theorem norm3_eq (v : V3) (r : ℝ) (h : normSq v = r ^ 2) (hr : 0 ≤ r) :
    norm3 v = r := by
  unfold norm3; rw [h, Real.sqrt_sq hr]

theorem scale_scale (a b : ℝ) (v : V3) :
    scale a (scale b v) = scale (a * b) v := by
  ext <;> simp [scale] <;> ring

theorem scale_one (v : V3) : scale 1 v = v := by
  ext <;> simp [scale]

theorem dot_comm (u v : V3) : dot u v = dot v u := by
  unfold dot; ring

theorem dot_scale_left (k : ℝ) (u v : V3) :
    dot (scale k u) v = k * dot u v := by
  unfold dot scale; dsimp; ring

theorem dot_scale_right (k : ℝ) (u v : V3) :
    dot u (scale k v) = k * dot u v := by
  unfold dot scale; dsimp; ring

theorem cross_scale_left (k : ℝ) (u v : V3) :
    cross (scale k u) v = scale k (cross u v) := by
  ext <;> simp [cross, scale] <;> ring

theorem cross_scale_right (k : ℝ) (u v : V3) :
    cross u (scale k v) = scale k (cross u v) := by
  ext <;> simp [cross, scale] <;> ring

theorem crossV_self (u : V3) : cross u u = ⟨0, 0, 0⟩ := by
  ext <;> simp [cross] <;> ring

theorem cross_swap (u v : V3) : cross u v = scale (-1) (cross v u) := by
  ext <;> simp [cross, scale] <;> ring

theorem cross_add_right (u v w : V3) :
    cross u (v + w) = cross u v + cross u w := by
  ext <;> simp [cross] <;> ring

theorem dot_cross_left (u v : V3) : dot (cross u v) u = 0 := by
  unfold dot cross; dsimp; ring

theorem dot_cross_right (u v : V3) : dot (cross u v) v = 0 := by
  unfold dot cross; dsimp; ring

theorem normSq_cross (u v : V3) :
    normSq (cross u v) = normSq u * normSq v - dot u v ^ 2 := by
  unfold normSq dot cross; dsimp; ring

theorem cross_triple (u v w : V3) :
    cross u (cross v w) = scale (dot u w) v - scale (dot u v) w := by
  ext <;> simp [cross, scale, dot] <;> ring

theorem normSq_scale (k : ℝ) (v : V3) :
    normSq (scale k v) = k ^ 2 * normSq v := by
  unfold normSq dot scale; dsimp; ring

theorem normSq_add (u v : V3) :
    normSq (u + v) = normSq u + 2 * dot u v + normSq v := by
  unfold normSq dot; dsimp; ring

theorem dot_add_right (u v w : V3) : dot u (v + w) = dot u v + dot u w := by
  unfold dot; dsimp; ring

theorem dot_sub_right (u v w : V3) : dot u (v - w) = dot u v - dot u w := by
  unfold dot; dsimp; ring

theorem normSq_sub_eq (u v : V3) :
    normSq (u - v) = normSq u - 2 * dot u v + normSq v := by
  unfold normSq dot; dsimp; ring

theorem add_sub_cancel_left3 (c w : V3) : c + w - c = w := by
  ext <;> simp

theorem unitV_normSq (v : V3) (h : 0 < normSq v) : normSq (unitV v) = 1 := by
  unfold unitV
  rw [normSq_scale]
  have h3 : norm3 v * norm3 v = normSq v := mul_self_norm3 v
  have hne : norm3 v ≠ 0 := ne_of_gt (norm3_pos v h)
  field_simp [sq]
  nlinarith [h3]

theorem unitV_scale_pos (k : ℝ) (hk : 0 < k) (v : V3) :
    unitV (scale k v) = unitV v := by
  unfold unitV
  have hn : norm3 (scale k v) = k * norm3 v := by
    unfold norm3
    rw [normSq_scale, Real.sqrt_mul (sq_nonneg k), Real.sqrt_sq hk.le]
  rw [hn, scale_scale]
  congr 1
  rcases eq_or_ne (norm3 v) 0 with h0 | h0
  · simp [h0]
  · rw [mul_inv]
    field_simp

theorem unitV_eq (v : V3) (r : ℝ) (h : normSq v = r ^ 2) (hr : 0 ≤ r) :
    unitV v = scale r⁻¹ v := by
  unfold unitV
  rw [norm3_eq v r h hr]

theorem l2_normalize_of_ge (t : V3) (h : (1e-12 : ℝ) ≤ normSq t) :
    l2_normalize t = unitV t := by
  unfold l2_normalize unitV norm3
  rw [max_eq_left h]

theorem l2_normalize_eq (t : V3) (r : ℝ) (h : normSq t = r ^ 2)
    (hr : (1e-6 : ℝ) ≤ r) : l2_normalize t = scale r⁻¹ t := by
  have h1 : (1e-12 : ℝ) ≤ normSq t := by rw [h]; nlinarith
  rw [l2_normalize_of_ge t h1, unitV_eq t r h (le_trans (by norm_num) hr)]

theorem l2_normalize_small (t : V3) (h : normSq t ≤ 1e-12) :
    l2_normalize t = scale 1e6 t := by
  unfold l2_normalize
  rw [max_eq_right h,
    show (1e-12 : ℝ) = (1e-6) ^ 2 by norm_num,
    Real.sqrt_sq (by norm_num : (0:ℝ) ≤ 1e-6)]
  congr 1
  norm_num

theorem nerf_eq_nerfSpec (a b c : V3) (l theta chi : ℝ)
    (hx : (1e-12 : ℝ) ≤ normSq (c - b))
    (hz : (1e-12 : ℝ) ≤
      normSq (cross (l2_normalize (b - a)) (l2_normalize (c - b)))) :
    nerf a b c l theta chi = nerfSpec a b c l theta chi := by
  have hxe : l2_normalize (c - b) = frameX b c := by
    rw [l2_normalize_of_ge _ hx]; rfl
  have hk1 : 0 < (Real.sqrt (max (normSq (b - a)) 1e-12))⁻¹ := by
    apply inv_pos.mpr
    apply Real.sqrt_pos.mpr
    exact lt_of_lt_of_le (by norm_num) (le_max_right _ _)
  have hW : l2_normalize (b - a)
      = scale (Real.sqrt (max (normSq (b - a)) 1e-12))⁻¹ (b - a) := rfl
  have hn : cross (l2_normalize (b - a)) (l2_normalize (c - b))
      = scale (Real.sqrt (max (normSq (b - a)) 1e-12))⁻¹
          (cross (b - a) (frameX b c)) := by
    rw [hxe, hW, cross_scale_left]
  have hzh : l2_normalize
      (cross (l2_normalize (b - a)) (l2_normalize (c - b)))
      = frameZ a b c := by
    rw [l2_normalize_of_ge _ hz, hn, unitV_scale_pos _ hk1]
    rfl
  simp only [nerf, nerfSpec]
  rw [hzh, hxe]
  rfl

theorem frame_facts (a b c : V3)
    (hx : (1e-12 : ℝ) ≤ normSq (c - b))
    (hz : (1e-12 : ℝ) ≤
      normSq (cross (l2_normalize (b - a)) (l2_normalize (c - b)))) :
    normSq (frameX b c) = 1 ∧ normSq (frameZ a b c) = 1 ∧
      dot (frameZ a b c) (frameX b c) = 0 := by
  have hx0 : 0 < normSq (c - b) := lt_of_lt_of_le (by norm_num) hx
  have h1 : normSq (frameX b c) = 1 := unitV_normSq _ hx0
  have hxe : l2_normalize (c - b) = frameX b c := by
    rw [l2_normalize_of_ge _ hx]; rfl
  have hn : cross (l2_normalize (b - a)) (l2_normalize (c - b))
      = scale (Real.sqrt (max (normSq (b - a)) 1e-12))⁻¹
          (cross (b - a) (frameX b c)) := by
    rw [hxe]
    exact cross_scale_left _ _ _
  have hw0 : 0 < normSq (cross (b - a) (frameX b c)) := by
    rcases lt_or_le 0 (normSq (cross (b - a) (frameX b c))) with h | h
    · exact h
    · exfalso
      have hle : normSq (cross (b - a) (frameX b c)) = 0 :=
        le_antisymm h (normSq_nonneg _)
      rw [hn, normSq_scale, hle] at hz
      norm_num at hz
  have h2 : normSq (frameZ a b c) = 1 := unitV_normSq _ hw0
  refine ⟨h1, h2, ?_⟩
  unfold frameZ unitV
  rw [dot_scale_left, dot_cross_right]
  ring

/-- C1 (amended): for every call of the NeRF placement step
`nerf a b c l theta chi` whose context clears the epsilon floor of
`l2_normalize` — `normSq (c - b)` and the squared norm of the
intermediate cross product are at least `1e-12`, strengthening the
claim's mere nonzeroness — the returned point equals
`c + M (-l cos theta, l sin theta cos chi, l sin theta sin chi)` where
`M` has columns `xhat = normalize (c - b)`, `yhat = zhat x xhat`,
`zhat = normalize ((b - a) x xhat)` with true normalization, in exact
real arithmetic (`nerfSpec`). -/
theorem C1_nerf_formula (a b c : V3) (l theta chi : ℝ)
    (hx : (1e-12 : ℝ) ≤ normSq (c - b))
    (hz : (1e-12 : ℝ) ≤
      normSq (cross (l2_normalize (b - a)) (l2_normalize (c - b)))) :
    nerf a b c l theta chi = nerfSpec a b c l theta chi :=
  nerf_eq_nerfSpec a b c l theta chi hx hz

theorem C1_nerf_formula_witness :
    nerf ⟨0, 0, 0⟩ ⟨1, 0, 0⟩ ⟨1, 1, 0⟩ 1 (Real.pi / 2) 0
      = nerfSpec ⟨0, 0, 0⟩ ⟨1, 0, 0⟩ ⟨1, 1, 0⟩ 1 (Real.pi / 2) 0 := by
  have e0 : (⟨1, 0, 0⟩ : V3) - ⟨0, 0, 0⟩ = ⟨1, 0, 0⟩ := by ext <;> norm_num
  have e1 : (⟨1, 1, 0⟩ : V3) - ⟨1, 0, 0⟩ = ⟨0, 1, 0⟩ := by ext <;> norm_num
  have n0 : l2_normalize (⟨1, 0, 0⟩ : V3) = ⟨1, 0, 0⟩ := by
    rw [l2_normalize_eq _ 1 (by norm_num [normSq, dot]) (by norm_num)]
    ext <;> norm_num [scale]
  have n1 : l2_normalize (⟨0, 1, 0⟩ : V3) = ⟨0, 1, 0⟩ := by
    rw [l2_normalize_eq _ 1 (by norm_num [normSq, dot]) (by norm_num)]
    ext <;> norm_num [scale]
  apply C1_nerf_formula
  · rw [e1]
    norm_num [normSq, dot]
  · rw [e0, e1, n0, n1,
      show cross (⟨1, 0, 0⟩ : V3) ⟨0, 1, 0⟩ = ⟨0, 0, 1⟩ by
        ext <;> norm_num [cross]]
    norm_num [normSq, dot]

/-- C1 counterexample: at the concrete, non-degenerate (all context
differences and their cross product nonzero) input a = 0, b = (1,0,0),
c = (1,1e-9,0), l = 1, theta = pi/2, chi = 0, the point `nerf` returns
differs from the claim's formula `nerfSpec`, because 1e-12 floors the
squared norm of c - b = (0,1e-9,0) inside l2_normalize. -/
theorem C1_nerf_formula_counterexample :
    nerf ⟨0, 0, 0⟩ ⟨1, 0, 0⟩ ⟨1, 1e-9, 0⟩ 1 (Real.pi / 2) 0
      ≠ nerfSpec ⟨0, 0, 0⟩ ⟨1, 0, 0⟩ ⟨1, 1e-9, 0⟩ 1 (Real.pi / 2) 0 := by
  have e0 : (⟨1, 0, 0⟩ : V3) - ⟨0, 0, 0⟩ = ⟨1, 0, 0⟩ := by ext <;> norm_num
  have e1 : (⟨1, 1e-9, 0⟩ : V3) - ⟨1, 0, 0⟩ = ⟨0, 1e-9, 0⟩ := by
    ext <;> norm_num
  have n0 : l2_normalize (⟨1, 0, 0⟩ : V3) = ⟨1, 0, 0⟩ := by
    rw [l2_normalize_eq _ 1 (by norm_num [normSq, dot]) (by norm_num)]
    ext <;> norm_num [scale]
  have n1 : l2_normalize (⟨0, 1e-9, 0⟩ : V3) = ⟨0, 1e-3, 0⟩ := by
    rw [l2_normalize_small _ (by norm_num [normSq, dot])]
    ext <;> norm_num [scale]
  have c1 : cross (⟨1, 0, 0⟩ : V3) ⟨0, 1e-3, 0⟩ = ⟨0, 0, 1e-3⟩ := by
    ext <;> norm_num [cross]
  have n2 : l2_normalize (⟨0, 0, 1e-3⟩ : V3) = ⟨0, 0, 1⟩ := by
    rw [l2_normalize_eq _ 1e-3 (by norm_num [normSq, dot]) (by norm_num)]
    ext <;> norm_num [scale]
  have c2 : cross (⟨0, 0, 1⟩ : V3) ⟨0, 1e-3, 0⟩ = ⟨-1e-3, 0, 0⟩ := by
    ext <;> norm_num [cross]
  have hL : nerf ⟨0, 0, 0⟩ ⟨1, 0, 0⟩ ⟨1, 1e-9, 0⟩ 1 (Real.pi / 2) 0
      = ⟨1 - 1e-3, 1e-9, 0⟩ := by
    simp only [nerf]
    rw [e0, e1, n0, n1, c1, n2, c2, Real.cos_pi_div_two,
      Real.sin_pi_div_two, Real.cos_zero, Real.sin_zero]
    ext <;> norm_num [scale]
  have u1 : unitV (⟨0, 1e-9, 0⟩ : V3) = ⟨0, 1, 0⟩ := by
    rw [unitV_eq _ 1e-9 (by norm_num [normSq, dot]) (by norm_num)]
    ext <;> norm_num [scale]
  have u2 : unitV (⟨0, 0, 1⟩ : V3) = ⟨0, 0, 1⟩ := by
    rw [unitV_eq _ 1 (by norm_num [normSq, dot]) (by norm_num)]
    ext <;> norm_num [scale]
  have hR : nerfSpec ⟨0, 0, 0⟩ ⟨1, 0, 0⟩ ⟨1, 1e-9, 0⟩ 1 (Real.pi / 2) 0
      = ⟨0, 1e-9, 0⟩ := by
    simp only [nerfSpec, frameX, frameY, frameZ]
    rw [e0, e1, u1,
      show cross (⟨1, 0, 0⟩ : V3) ⟨0, 1, 0⟩ = ⟨0, 0, 1⟩ by
        ext <;> norm_num [cross],
      u2,
      show cross (⟨0, 0, 1⟩ : V3) ⟨0, 1, 0⟩ = ⟨-1, 0, 0⟩ by
        ext <;> norm_num [cross],
      Real.cos_pi_div_two, Real.sin_pi_div_two, Real.cos_zero,
      Real.sin_zero]
    ext <;> norm_num [scale]
  intro h
  rw [hL, hR] at h
  have := congrArg V3.x h
  norm_num at this

/-- C8 (amended): `l2_normalize v` equals `v / max(|v|, 1e-6)`: the
default `eps = 1e-12` floors the squared norm under the square root, so
the effective floor on the norm itself is `sqrt(1e-12) = 1e-6`, not
`1e-12` as the claim words it. -/
theorem C8_l2_normalize_eq_norm_floor (v : V3) :
    l2_normalize v = scale (max (norm3 v) 1e-6)⁻¹ v := by
  unfold l2_normalize norm3
  congr 2
  have mono : Monotone Real.sqrt := fun _ _ h => Real.sqrt_le_sqrt h
  rw [mono.map_max,
    show Real.sqrt 1e-12 = 1e-6 by
      rw [show (1e-12 : ℝ) = (1e-6) ^ 2 by norm_num,
        Real.sqrt_sq (by norm_num : (0:ℝ) ≤ 1e-6)]]

/-- C8 counterexample: at the nonzero input v = (1e-9, 0, 0), the
claim's `v / max(|v|, 1e-12)` (spec_normalize, a unit vector) differs
from what `l2_normalize` returns (a vector of norm 1e-3). -/
theorem C8_l2_normalize_counterexample :
    l2_normalize ⟨1e-9, 0, 0⟩ ≠ spec_normalize ⟨1e-9, 0, 0⟩ := by
  have hL : l2_normalize (⟨1e-9, 0, 0⟩ : V3) = ⟨1e-3, 0, 0⟩ := by
    rw [l2_normalize_small _ (by norm_num [normSq, dot])]
    ext <;> norm_num [scale]
  have hn : norm3 (⟨1e-9, 0, 0⟩ : V3) = 1e-9 :=
    norm3_eq _ 1e-9 (by norm_num [normSq, dot]) (by norm_num)
  have hR : spec_normalize (⟨1e-9, 0, 0⟩ : V3) = ⟨1, 0, 0⟩ := by
    unfold spec_normalize
    rw [hn, show max (1e-9 : ℝ) 1e-12 = 1e-9 by norm_num]
    ext <;> norm_num [scale]
  intro h
  rw [hL, hR] at h
  have := congrArg V3.x h
  norm_num at this

/-- C3: evaluation of `init_backbone` at the failing input
`angles[0,3] = pi/2`.  Atom 1 is at the origin and atom 2 at
(1.442,0,0) as claimed, but atom 3 is placed at the absolute position
(cos(pi/2) * 1.498, sin(pi/2) * 1.498, 0) = (0, 1.498, 0) — measured
from the origin, not from atom 2 — so its distance from atom 2 is
sqrt(1.442^2 + 1.498^2), not 1.498: the code drops the `a2 +`
translation the spec describes. -/
theorem C3_init_backbone_eval :
    init_backbone [rowEx]
      = some [⟨0, 0, 0⟩, ⟨1.442, 0, 0⟩, ⟨0, 1.498, 0⟩]
    ∧ normSq ((⟨0, 1.498, 0⟩ : V3) - ⟨1.442, 0, 0⟩) ≠ (1.498 : ℝ) ^ 2 := by
  constructor
  · have hp : Real.pi - Real.pi / 2 = Real.pi / 2 := by ring
    simp [init_backbone, rowEx, hp, Real.cos_pi_div_two,
      Real.sin_pi_div_two]
  · norm_num [normSq, dot]

/-- Evaluation of a NeRF step on the non-degenerate context
(0,0,0), (1,0,0), (1,1,0) with bond angle pi/2 and dihedral 0: the new
point is (1 - l, 1, 0), at distance l from the context atom c =
(1,1,0). -/
theorem nerf_ctx_eval (l : ℝ) :
    nerf ⟨0, 0, 0⟩ ⟨1, 0, 0⟩ ⟨1, 1, 0⟩ l (Real.pi / 2) 0
      = ⟨1 - l, 1, 0⟩ := by
  have e0 : (⟨1, 0, 0⟩ : V3) - ⟨0, 0, 0⟩ = ⟨1, 0, 0⟩ := by ext <;> norm_num
  have e1 : (⟨1, 1, 0⟩ : V3) - ⟨1, 0, 0⟩ = ⟨0, 1, 0⟩ := by ext <;> norm_num
  have n0 : l2_normalize (⟨1, 0, 0⟩ : V3) = ⟨1, 0, 0⟩ := by
    rw [l2_normalize_eq _ 1 (by norm_num [normSq, dot]) (by norm_num)]
    ext <;> norm_num [scale]
  have n1 : l2_normalize (⟨0, 1, 0⟩ : V3) = ⟨0, 1, 0⟩ := by
    rw [l2_normalize_eq _ 1 (by norm_num [normSq, dot]) (by norm_num)]
    ext <;> norm_num [scale]
  have c1 : cross (⟨1, 0, 0⟩ : V3) ⟨0, 1, 0⟩ = ⟨0, 0, 1⟩ := by
    ext <;> norm_num [cross]
  have n2 : l2_normalize (⟨0, 0, 1⟩ : V3) = ⟨0, 0, 1⟩ := by
    rw [l2_normalize_eq _ 1 (by norm_num [normSq, dot]) (by norm_num)]
    ext <;> norm_num [scale]
  have c2 : cross (⟨0, 0, 1⟩ : V3) ⟨0, 1, 0⟩ = ⟨-1, 0, 0⟩ := by
    ext <;> norm_num [cross]
  simp only [nerf]
  rw [e0, e1, n0, n1, c1, n2, c2, Real.cos_pi_div_two,
    Real.sin_pi_div_two, Real.cos_zero, Real.sin_zero]
  ext <;> norm_num [scale] <;> ring

/-- Evaluation of `extend_backbone` for residue 1 with all bond-angle
slots pi/2 and all torsions 0, starting from the context `coordsEx`:
all three atoms are placed from the SAME context triple (the source
never appends to `coords` inside its j-loop), each at distance
1.379 / 1.442 / 1.498 from (1,1,0). -/
theorem extend_backbone_eval :
    extend_backbone 1 [rowEx, rowEx] coordsEx
      = some [⟨1 - 1.379, 1, 0⟩, ⟨1 - 1.442, 1, 0⟩, ⟨1 - 1.498, 1, 0⟩] := by
  have step : extend_backbone 1 [rowEx, rowEx] coordsEx
      = some [nerf ⟨0, 0, 0⟩ ⟨1, 0, 0⟩ ⟨1, 1, 0⟩ 1.379 (Real.pi / 2) 0,
              nerf ⟨0, 0, 0⟩ ⟨1, 0, 0⟩ ⟨1, 1, 0⟩ 1.442 (Real.pi / 2) 0,
              nerf ⟨0, 0, 0⟩ ⟨1, 0, 0⟩ ⟨1, 1, 0⟩ 1.498 (Real.pi / 2) 0] := rfl
  rw [step, nerf_ctx_eval, nerf_ctx_eval, nerf_ctx_eval]

/-- C2: the bond-length invariant fails in `extend_backbone`.  At the
concrete non-degenerate input (context `coordsEx`, all bond angles pi/2,
all torsions 0) the Ca atom of residue 1 is placed at distance 1.442
from the PREVIOUS residue's C atom (1,1,0) — the frozen context — and
its squared distance from the immediately preceding atom N is
0.063^2, not 1.442^2. -/
theorem C2_bond_length_violation :
    extend_backbone 1 [rowEx, rowEx] coordsEx
      = some [⟨1 - 1.379, 1, 0⟩, ⟨1 - 1.442, 1, 0⟩, ⟨1 - 1.498, 1, 0⟩]
    ∧ normSq ((⟨1 - 1.442, 1, 0⟩ : V3) - ⟨1 - 1.379, 1, 0⟩)
        ≠ (1.442 : ℝ) ^ 2 :=
  ⟨extend_backbone_eval, by norm_num [normSq, dot]⟩

/-- C4: the extender does not use the three most recently placed atoms
as context for the second and third placement.  At the same concrete
input, the Ca atom the code returns differs from the Ca atom a NeRF call
anchored on the three most recently placed atoms
((1,0,0), (1,1,0), N = (1 - 1.379, 1, 0)) would produce. -/
theorem C4_frozen_context :
    extend_backbone 1 [rowEx, rowEx] coordsEx
      = some [⟨1 - 1.379, 1, 0⟩, ⟨1 - 1.442, 1, 0⟩, ⟨1 - 1.498, 1, 0⟩]
    ∧ (⟨1 - 1.442, 1, 0⟩ : V3)
        ≠ nerf ⟨1, 0, 0⟩ ⟨1, 1, 0⟩ ⟨1 - 1.379, 1, 0⟩ 1.442
            (Real.pi / 2) 0 := by
  refine ⟨extend_backbone_eval, ?_⟩
  have e0 : (⟨1, 1, 0⟩ : V3) - ⟨1, 0, 0⟩ = ⟨0, 1, 0⟩ := by ext <;> norm_num
  have e1 : (⟨1 - 1.379, 1, 0⟩ : V3) - ⟨1, 1, 0⟩ = ⟨-1.379, 0, 0⟩ := by
    ext <;> norm_num
  have n0 : l2_normalize (⟨0, 1, 0⟩ : V3) = ⟨0, 1, 0⟩ := by
    rw [l2_normalize_eq _ 1 (by norm_num [normSq, dot]) (by norm_num)]
    ext <;> norm_num [scale]
  have n1 : l2_normalize (⟨-1.379, 0, 0⟩ : V3) = ⟨-1, 0, 0⟩ := by
    rw [l2_normalize_eq _ 1.379 (by norm_num [normSq, dot]) (by norm_num)]
    ext <;> norm_num [scale]
  have c1 : cross (⟨0, 1, 0⟩ : V3) ⟨-1, 0, 0⟩ = ⟨0, 0, 1⟩ := by
    ext <;> norm_num [cross]
  have n2 : l2_normalize (⟨0, 0, 1⟩ : V3) = ⟨0, 0, 1⟩ := by
    rw [l2_normalize_eq _ 1 (by norm_num [normSq, dot]) (by norm_num)]
    ext <;> norm_num [scale]
  have c2 : cross (⟨0, 0, 1⟩ : V3) ⟨-1, 0, 0⟩ = ⟨0, -1, 0⟩ := by
    ext <;> norm_num [cross]
  have hseq : nerf ⟨1, 0, 0⟩ ⟨1, 1, 0⟩ ⟨1 - 1.379, 1, 0⟩ 1.442
      (Real.pi / 2) 0 = ⟨1 - 1.379, 1 - 1.442, 0⟩ := by
    simp only [nerf]
    rw [e0, e1, n0, n1, c1, n2, c2, Real.cos_pi_div_two,
      Real.sin_pi_div_two, Real.cos_zero, Real.sin_zero]
    ext <;> norm_num [scale]
  rw [hseq]
  intro h
  have := congrArg V3.y h
  norm_num at this


/-- Evaluation of a NeRF step on the collinear context
(0,0,0), (1.442,0,0), (1.498,0,0) with bond angle pi and dihedral pi:
the cross product degenerates to zero and the new point is
(1.498 + l, 0, 0). -/
theorem nerf_pi_eval (l : ℝ) :
    nerf ⟨0, 0, 0⟩ ⟨1.442, 0, 0⟩ ⟨1.498, 0, 0⟩ l Real.pi Real.pi
      = ⟨1.498 + l, 0, 0⟩ := by
  have e0 : (⟨1.442, 0, 0⟩ : V3) - ⟨0, 0, 0⟩ = ⟨1.442, 0, 0⟩ := by
    ext <;> norm_num
  have e1 : (⟨1.498, 0, 0⟩ : V3) - ⟨1.442, 0, 0⟩ = ⟨0.056, 0, 0⟩ := by
    ext <;> norm_num
  have n0 : l2_normalize (⟨1.442, 0, 0⟩ : V3) = ⟨1, 0, 0⟩ := by
    rw [l2_normalize_eq _ 1.442 (by norm_num [normSq, dot]) (by norm_num)]
    ext <;> norm_num [scale]
  have n1 : l2_normalize (⟨0.056, 0, 0⟩ : V3) = ⟨1, 0, 0⟩ := by
    rw [l2_normalize_eq _ 0.056 (by norm_num [normSq, dot]) (by norm_num)]
    ext <;> norm_num [scale]
  have c1 : cross (⟨1, 0, 0⟩ : V3) ⟨1, 0, 0⟩ = ⟨0, 0, 0⟩ := by
    ext <;> norm_num [cross]
  have n2 : l2_normalize (⟨0, 0, 0⟩ : V3) = ⟨0, 0, 0⟩ := by
    rw [l2_normalize_small _ (by norm_num [normSq, dot])]
    ext <;> norm_num [scale]
  have c2 : cross (⟨0, 0, 0⟩ : V3) ⟨1, 0, 0⟩ = ⟨0, 0, 0⟩ := by
    ext <;> norm_num [cross]
  simp only [nerf]
  rw [e0, e1, n0, n1, c1, n2, c2, Real.cos_pi, Real.sin_pi]
  ext <;> norm_num [scale] <;> ring

theorem init_backbone_pi (rest : List AngleRow) :
    init_backbone (rowPi :: rest)
      = some [⟨0, 0, 0⟩, ⟨1.442, 0, 0⟩, ⟨1.498, 0, 0⟩] := by
  have h0 : List.get? (rowPi :: rest) 0 = some rowPi := rfl
  simp only [init_backbone, h0, Option.some_bind, rowPi, sub_self,
    Real.cos_zero, Real.sin_zero]
  norm_num

theorem chain_arrs_zero_pi (rest : List AngleRow) :
    chain_arrs extEmpty (rowPi :: rest) () 0
      = some ([⟨0, 0, 0⟩, ⟨1.442, 0, 0⟩, ⟨1.498, 0, 0⟩], [⟨0, 0, 0⟩]) := by
  simp only [chain_arrs, init_backbone_pi, Option.map_some', init_sidechain]

theorem extend_backbone_pi_eval :
    extend_backbone 1 [rowPi, rowPi]
        [⟨0, 0, 0⟩, ⟨1.442, 0, 0⟩, ⟨1.498, 0, 0⟩]
      = some [⟨1.498 + 1.379, 0, 0⟩, ⟨1.498 + 1.442, 0, 0⟩,
              ⟨1.498 + 1.498, 0, 0⟩] := by
  have step : extend_backbone 1 [rowPi, rowPi]
      [⟨0, 0, 0⟩, ⟨1.442, 0, 0⟩, ⟨1.498, 0, 0⟩]
      = some [nerf ⟨0, 0, 0⟩ ⟨1.442, 0, 0⟩ ⟨1.498, 0, 0⟩ 1.379
                Real.pi Real.pi,
              nerf ⟨0, 0, 0⟩ ⟨1.442, 0, 0⟩ ⟨1.498, 0, 0⟩ 1.442
                Real.pi Real.pi,
              nerf ⟨0, 0, 0⟩ ⟨1.442, 0, 0⟩ ⟨1.498, 0, 0⟩ 1.498
                Real.pi Real.pi] := rfl
  rw [step, nerf_pi_eval, nerf_pi_eval, nerf_pi_eval]

theorem chain_arrs_one_pi :
    chain_arrs extEmpty [rowPi, rowPi] () 1
      = some ([⟨0, 0, 0⟩, ⟨1.442, 0, 0⟩, ⟨1.498, 0, 0⟩,
               ⟨1.498 + 1.379, 0, 0⟩, ⟨1.498 + 1.442, 0, 0⟩,
               ⟨1.498 + 1.498, 0, 0⟩], [⟨0, 0, 0⟩]) := by
  show (chain_arrs extEmpty [rowPi, rowPi] () 0).bind
      (chain_step extEmpty [rowPi, rowPi] () 1) = _
  rw [chain_arrs_zero_pi [rowPi], Option.some_bind]
  simp only [chain_step, extend_backbone_pi_eval, Option.some_bind, extEmpty]
  rfl

theorem gc_pi_one_eval :
    generate_coords extEmpty [rowPi] 1 ()
      = some [⟨0, 0, 0⟩, ⟨1.442, 0, 0⟩, ⟨1.498, 0, 0⟩, ⟨0, 0, 0⟩] := by
  show (chain_arrs extEmpty [rowPi] () 0).map _ = _
  rw [chain_arrs_zero_pi []]
  rfl

theorem gc_pi_two_eval :
    generate_coords extEmpty [rowPi, rowPi] 2 ()
      = some [⟨0, 0, 0⟩, ⟨1.442, 0, 0⟩, ⟨1.498, 0, 0⟩,
              ⟨1.498 + 1.379, 0, 0⟩, ⟨1.498 + 1.442, 0, 0⟩,
              ⟨1.498 + 1.498, 0, 0⟩, ⟨0, 0, 0⟩] := by
  show (chain_arrs extEmpty [rowPi, rowPi] () 1).map _ = _
  rw [chain_arrs_one_pi]
  rfl

theorem inter_pi_two_eval :
    generate_coords_interleaved extEmpty [rowPi, rowPi] 2 ()
      = some [⟨0, 0, 0⟩, ⟨1.442, 0, 0⟩, ⟨1.498, 0, 0⟩, ⟨0, 0, 0⟩,
              ⟨1.498 + 1.379, 0, 0⟩, ⟨1.498 + 1.442, 0, 0⟩,
              ⟨1.498 + 1.498, 0, 0⟩] := by
  have h0 : chain_inter extEmpty [rowPi, rowPi] () 0
      = some ([⟨0, 0, 0⟩, ⟨1.442, 0, 0⟩, ⟨1.498, 0, 0⟩], [⟨0, 0, 0⟩],
              [⟨0, 0, 0⟩, ⟨1.442, 0, 0⟩, ⟨1.498, 0, 0⟩, ⟨0, 0, 0⟩]) := by
    simp only [chain_inter, init_backbone_pi, Option.map_some',
      init_sidechain]
    rfl
  show (chain_inter extEmpty [rowPi, rowPi] () 1).map _ = _
  have h1 : chain_inter extEmpty [rowPi, rowPi] () 1
      = (chain_inter extEmpty [rowPi, rowPi] () 0).bind _ := rfl
  rw [h1, h0, Option.some_bind]
  simp only [zero_add, extend_backbone_pi_eval, Option.some_bind, extEmpty]
  rfl

/-- Each claim-C5-shaped per-residue recursion step agrees with the
code's two-accumulator recursion on the first two components. -/
theorem chain_arrs_eq_inter {σ : Type} (ext : SCExt σ)
    (angles : List AngleRow) (seq : σ) :
    ∀ k, chain_arrs ext angles seq k
      = (chain_inter ext angles seq k).map (fun st => (st.1, st.2.1)) := by
  intro k
  induction k with
  | zero =>
      simp only [chain_arrs, chain_inter]
      cases init_backbone angles with
      | none => rfl
      | some bb => rfl
  | succ k ih =>
      simp only [chain_arrs, chain_inter, ih]
      cases chain_inter ext angles seq k with
      | none => rfl
      | some st =>
          simp only [Option.map_some', Option.some_bind, chain_step]
          cases extend_backbone (k + 1) angles st.1 with
          | none => rfl
          | some pts =>
              cases hE : ext (k + 1) angles (st.1 ++ pts) st.2.1 seq with
              | none => simp [hE]
              | some scp => simp [hE]


/-- C5 (amended): the coordinate sequence returned by `generate_coords`
is NOT interleaved per residue; it is the concatenation of two blocks:
first all backbone atoms (residues in sequence order, N/Ca/C within each
residue), then all side-chain atoms (residues in sequence order).  The
right-hand side computes the same per-residue pieces as the claimed
interleaved order (`chain_inter`) but concatenates the accumulated
backbone block with the accumulated side-chain block. -/
theorem C5_two_blocks {σ : Type} (ext : SCExt σ) (angles : List AngleRow)
    (pad_loc : ℕ) (seq : σ) :
    generate_coords ext angles pad_loc seq
      = (chain_inter ext angles seq (pad_loc - 1)).map
          (fun st => st.1 ++ st.2.1) := by
  unfold generate_coords
  rw [chain_arrs_eq_inter, Option.map_map]
  rfl

/-- C5 counterexample: for the concrete 2-residue input (all angle
entries pi, empty side-chain extensions), the code's output has residue
1's backbone N atom at index 3, where the claimed per-residue
interleaved order has residue 0's side-chain placeholder (0,0,0): the
two orders differ. -/
theorem C5_counterexample :
    generate_coords extEmpty [rowPi, rowPi] 2 ()
      ≠ generate_coords_interleaved extEmpty [rowPi, rowPi] 2 () := by
  rw [gc_pi_two_eval, inter_pi_two_eval]
  intro h
  simp only [Option.some.injEq, List.cons.injEq] at h
  obtain ⟨-, -, -, h4, -⟩ := h
  have := congrArg V3.x h4
  norm_num at this

theorem extend_backbone_none (i : ℕ) (angles : List AngleRow)
    (coords : List V3) (h : angles.length ≤ i) :
    extend_backbone i angles coords = none := by
  have hg : angles.get? i = none := List.get?_eq_none.mpr h
  simp only [extend_backbone]
  rw [hg]
  rfl

theorem chain_arrs_none {σ : Type} (ext : SCExt σ) (angles : List AngleRow)
    (seq : σ) : ∀ k, angles.length ≤ k →
    chain_arrs ext angles seq k = none := by
  intro k
  induction k with
  | zero =>
      intro h
      have h0 : angles = [] :=
        List.length_eq_zero.mp (le_antisymm h (Nat.zero_le _))
      subst h0
      rfl
  | succ k ih =>
      intro h
      simp only [chain_arrs]
      cases hc : chain_arrs ext angles seq k with
      | none => rfl
      | some st =>
          simp [chain_step, extend_backbone_none (k + 1) angles st.1 h]

/-- C9: for every angle table and every pad_loc exceeding the number of
angle rows, `generate_coords` fails (returns `none`, modelling the
IndexError raised on reading the undefined residue's angle row) rather
than returning a coordinate sequence, whatever the side-chain extender
does: it never skips undefined residues or fabricates coordinates. -/
theorem C9_fails_past_table {σ : Type} (ext : SCExt σ)
    (angles : List AngleRow) (pad_loc : ℕ) (seq : σ)
    (h : angles.length < pad_loc) :
    generate_coords ext angles pad_loc seq = none := by
  unfold generate_coords
  rw [chain_arrs_none ext angles seq (pad_loc - 1) (by omega)]
  rfl

theorem C9_fails_past_table_witness :
    generate_coords extEmpty [] 1 () = none :=
  C9_fails_past_table extEmpty [] 1 () (by simp)

theorem init_backbone_length (angles : List AngleRow) (bb : List V3)
    (h : init_backbone angles = some bb) : bb.length = 3 := by
  cases angles with
  | nil => simp [init_backbone] at h
  | cons r rest =>
      have hr : List.get? (r :: rest) 0 = some r := rfl
      simp only [init_backbone, hr] at h
      simp at h
      subst h
      rfl

theorem extend_backbone_length (i : ℕ) (angles : List AngleRow)
    (coords : List V3) (pts : List V3)
    (h : extend_backbone i angles coords = some pts) : pts.length = 3 := by
  simp only [extend_backbone] at h
  cases hg : angles.get? i with
  | none => rw [hg] at h; simp at h
  | some rowi =>
      rw [hg] at h
      cases hg2 : angles.get? (i - 1) with
      | none => rw [hg2] at h; simp at h
      | some rowp =>
          rw [hg2] at h
          cases h3 : coords.reverse.get? 2 with
          | none => rw [h3] at h; simp at h
          | some p3 =>
              rw [h3] at h
              cases h2 : coords.reverse.get? 1 with
              | none => rw [h2] at h; simp at h
              | some p2 =>
                  rw [h2] at h
                  cases h1 : coords.reverse.get? 0 with
                  | none => rw [h1] at h; simp at h
                  | some p1 =>
                      rw [h1] at h
                      simp at h
                      subst h
                      rfl

/-- Whenever the loop state is defined, the backbone accumulator holds
exactly 3 * (k + 1) atoms and the side-chain accumulator starts with the
(0,0,0) placeholder produced by the `init_sidechain` stub. -/
theorem chain_arrs_some_shape {σ : Type} (ext : SCExt σ)
    (angles : List AngleRow) (seq : σ) :
    ∀ k st, chain_arrs ext angles seq k = some st →
      st.1.length = 3 * (k + 1) ∧ ∃ t, st.2 = (⟨0, 0, 0⟩ : V3) :: t := by
  intro k
  induction k with
  | zero =>
      intro st h
      simp only [chain_arrs] at h
      cases hb : init_backbone angles with
      | none => rw [hb] at h; simp at h
      | some bb =>
          rw [hb] at h
          simp only [Option.map_some', Option.some.injEq] at h
          subst h
          exact ⟨by simp [init_backbone_length angles bb hb],
            ⟨[], rfl⟩⟩
  | succ k ih =>
      intro st h
      simp only [chain_arrs] at h
      cases hc : chain_arrs ext angles seq k with
      | none => rw [hc] at h; simp at h
      | some st0 =>
          rw [hc] at h
          simp only [chain_step, Option.some_bind] at h
          cases hb : extend_backbone (k + 1) angles st0.1 with
          | none => rw [hb] at h; simp at h
          | some pts =>
              rw [hb] at h
              simp only [Option.bind_eq_bind, Option.some_bind] at h
              cases hE : ext (k + 1) angles (st0.1 ++ pts) st0.2 seq with
              | none => rw [hE] at h; simp at h
              | some scp =>
                  rw [hE] at h
                  simp at h
                  obtain ⟨h1, ⟨t, h2⟩⟩ := ih st0 hc
                  subst h
                  constructor
                  · simp only [List.length_append, h1,
                      extend_backbone_length _ _ _ _ hb]
                    omega
                  · exact ⟨t ++ scp, by rw [h2, List.cons_append]⟩


/-- When every side-chain extension succeeds with the template count of
its residue, the loop state is defined for every residue index below
the table length, and the side-chain accumulator holds 1 (the
init_sidechain placeholder) plus the template counts of residues
1..k. -/
theorem chain_arrs_total {σ : Type} (ext : SCExt σ) (angles : List AngleRow)
    (seq : σ) (cnt : ℕ → ℕ)
    (hext : ∀ i bb sc, ∃ pts, ext i angles bb sc seq = some pts
      ∧ pts.length = cnt i) :
    ∀ k, k < angles.length →
      ∃ st, chain_arrs ext angles seq k = some st
        ∧ st.2.length = 1 + ∑ i in Finset.Ico 1 (k + 1), cnt i := by
  intro k
  induction k with
  | zero =>
      intro hk
      cases angles with
      | nil => simp at hk
      | cons r rest =>
          have hbb : init_backbone (r :: rest)
              = some [⟨0, 0, 0⟩, ⟨1.442, 0, 0⟩,
                  ⟨Real.cos (Real.pi - r.theta_ncac) * 1.498,
                   Real.sin (Real.pi - r.theta_ncac) * 1.498, 0⟩] := rfl
          refine ⟨([⟨0, 0, 0⟩, ⟨1.442, 0, 0⟩,
              ⟨Real.cos (Real.pi - r.theta_ncac) * 1.498,
               Real.sin (Real.pi - r.theta_ncac) * 1.498, 0⟩],
              [⟨0, 0, 0⟩]), ?_, ?_⟩
          · simp only [chain_arrs, hbb, Option.map_some']
            rfl
          · simp
  | succ k ih =>
      intro hk
      obtain ⟨st0, hc, hlen⟩ := ih (by omega)
      obtain ⟨hblen, -⟩ := chain_arrs_some_shape ext angles seq k st0 hc
      have hA : ∃ r1, angles.get? (k + 1) = some r1 := by
        cases hA0 : angles.get? (k + 1) with
        | none =>
            exfalso
            have := List.get?_eq_none.mp hA0
            omega
        | some r1 => exact ⟨r1, rfl⟩
      obtain ⟨r1, hA⟩ := hA
      have hB : ∃ r0, angles.get? (k + 1 - 1) = some r0 := by
        cases hB0 : angles.get? (k + 1 - 1) with
        | none =>
            exfalso
            have := List.get?_eq_none.mp hB0
            omega
        | some r0 => exact ⟨r0, rfl⟩
      obtain ⟨r0, hB⟩ := hB
      have hrl : st0.1.reverse.length = 3 * (k + 1) := by
        rw [List.length_reverse, hblen]
      have hg : ∀ j, j < 3 → ∃ p, st0.1.reverse.get? j = some p := by
        intro j hj
        cases hg0 : st0.1.reverse.get? j with
        | none =>
            exfalso
            have := List.get?_eq_none.mp hg0
            omega
        | some p => exact ⟨p, rfl⟩
      obtain ⟨p3, h3⟩ := hg 2 (by norm_num)
      obtain ⟨p2, h2⟩ := hg 1 (by norm_num)
      obtain ⟨p1, h1⟩ := hg 0 (by norm_num)
      have hEB : extend_backbone (k + 1) angles st0.1
          = some [nerf p3 p2 p1 1.379 r1.theta_cacn r0.psi,
                  nerf p3 p2 p1 1.442 r1.theta_cnca r0.omega,
                  nerf p3 p2 p1 1.498 r1.theta_ncac r1.phi] := by
        simp only [extend_backbone, hA, hB, h3, h2, h1,
          Option.bind_eq_bind, Option.some_bind]
        rfl
      obtain ⟨scp, hscp, hscplen⟩ :=
        hext (k + 1)
          (st0.1 ++ [nerf p3 p2 p1 1.379 r1.theta_cacn r0.psi,
                     nerf p3 p2 p1 1.442 r1.theta_cnca r0.omega,
                     nerf p3 p2 p1 1.498 r1.theta_ncac r1.phi]) st0.2
      refine ⟨(st0.1 ++ [nerf p3 p2 p1 1.379 r1.theta_cacn r0.psi,
                  nerf p3 p2 p1 1.442 r1.theta_cnca r0.omega,
                  nerf p3 p2 p1 1.498 r1.theta_ncac r1.phi],
               st0.2 ++ scp), ?_, ?_⟩
      · simp only [chain_arrs, hc, Option.some_bind, chain_step, hEB,
          Option.bind_eq_bind, hscp]
        rfl
      · simp only [List.length_append, hlen, hscplen,
          Finset.sum_Ico_succ_top (by omega : 1 ≤ k + 1)]
        ring

/-- C6 (amended): for every input with 1 <= pad_loc <= number of angle
rows, and every side-chain extender that emits the template count
cnt(i) of atoms for residue i, the number of atom positions returned by
generate_coords equals 3 * pad_loc + 1 + sum of cnt(i) for i in
1..pad_loc-1: every real residue contributes its 3 backbone atoms,
residue 0 contributes exactly ONE placeholder side-chain atom (the
init_sidechain stub) regardless of its template count, residues
1..pad_loc-1 contribute their template counts, and residues at indices
>= pad_loc contribute nothing. -/
theorem C6_atom_count {σ : Type} (ext : SCExt σ) (angles : List AngleRow)
    (seq : σ) (cnt : ℕ → ℕ) (pad_loc : ℕ)
    (hext : ∀ i bb sc, ∃ pts, ext i angles bb sc seq = some pts
      ∧ pts.length = cnt i)
    (h1 : 1 ≤ pad_loc) (h2 : pad_loc ≤ angles.length) :
    ∃ out, generate_coords ext angles pad_loc seq = some out
      ∧ out.length = 3 * pad_loc + 1
          + ∑ i in Finset.Ico 1 pad_loc, cnt i := by
  obtain ⟨st, hcs, hsc⟩ :=
    chain_arrs_total ext angles seq cnt hext (pad_loc - 1) (by omega)
  obtain ⟨hbb, -⟩ := chain_arrs_some_shape ext angles seq (pad_loc - 1) st hcs
  refine ⟨st.1 ++ st.2, ?_, ?_⟩
  · unfold generate_coords
    rw [hcs]
    rfl
  · rw [List.length_append, hbb, hsc,
      show pad_loc - 1 + 1 = pad_loc by omega]
    ring

theorem C6_atom_count_witness :
    ∃ out, generate_coords extEmpty [rowPi] 1 () = some out
      ∧ out.length = 3 * 1 + 1 + ∑ i in Finset.Ico 1 1, (fun _ => 0) i :=
  C6_atom_count extEmpty [rowPi] () (fun _ => 0) 1
    (fun _ _ _ => ⟨[], rfl, rfl⟩) (by norm_num) (by simp)

/-- C6 counterexample: a 1-residue chain whose residue type has
side-chain template count 0 (the zero-length extension the spec
prescribes, e.g. glycine).  The claim predicts 3 + 0 = 3 atoms; the
code returns 4 — the 3 backbone atoms plus the init_sidechain
placeholder that is emitted regardless of the residue's template
count. -/
theorem C6_atom_count_counterexample :
    ∃ out, generate_coords extEmpty [rowPi] 1 () = some out
      ∧ out.length ≠ 3 :=
  ⟨_, gc_pi_one_eval, by simp⟩

/-- C10: `init_sidechain` ignores both of its arguments and returns the
single-element list holding the zero vector, and consequently every
defined output of `generate_coords` (for any side-chain extender, angle
table and sequence, with pad_loc >= 1) contains an atom at exactly the
origin at position 3 * pad_loc, the first position of its side-chain
block; the extension loop starts at residue 1, so residue 0's side chain
is never extended beyond this placeholder. -/
theorem C10_sidechain_stub :
    (∀ (angles : List AngleRow) (bb : List V3),
        init_sidechain angles bb = [⟨0, 0, 0⟩])
    ∧ ∀ (σ : Type) (ext : SCExt σ) (angles : List AngleRow) (pad_loc : ℕ)
        (seq : σ) (out : List V3), 1 ≤ pad_loc →
        generate_coords ext angles pad_loc seq = some out →
        out.get? (3 * pad_loc) = some ⟨0, 0, 0⟩ := by
  constructor
  · intro angles bb
    rfl
  · intro σ ext angles pad_loc seq out hp h
    unfold generate_coords at h
    cases hc : chain_arrs ext angles seq (pad_loc - 1) with
    | none => rw [hc] at h; simp at h
    | some st =>
        rw [hc] at h
        simp only [Option.map_some', Option.some.injEq] at h
        obtain ⟨hbb, t, hsc⟩ :=
          chain_arrs_some_shape ext angles seq (pad_loc - 1) st hc
        have hlen : st.1.length = 3 * pad_loc := by
          rw [hbb]
          omega
        rw [← h, ← hlen, List.get?_append_right (le_refl _), Nat.sub_self,
          hsc]
        rfl

theorem C10_sidechain_stub_witness :
    (([⟨0, 0, 0⟩, ⟨1.442, 0, 0⟩, ⟨1.498, 0, 0⟩, ⟨0, 0, 0⟩] :
        List V3).get? (3 * 1)) = some ⟨0, 0, 0⟩ :=
  C10_sidechain_stub.2 Unit extEmpty [rowPi] 1 () _ (by norm_num)
    gc_pi_one_eval


theorem scale_add (k : ℝ) (u v : V3) :
    scale k (u + v) = scale k u + scale k v := by
  ext <;> simp [scale] <;> ring

theorem scale_norm3_unitV (v : V3) (h : 0 < normSq v) :
    scale (norm3 v) (unitV v) = v := by
  unfold unitV
  rw [scale_scale, mul_inv_cancel₀ (ne_of_gt (norm3_pos v h)), scale_one]

theorem cross_comb3 (X Y Z : V3) (dx dy dz : ℝ)
    (hXY : cross X Y = Z) (hXZ : cross X Z = scale (-1) Y) :
    cross X (scale dx X + scale dy Y + scale dz Z)
      = scale dy Z + scale (-dz) Y := by
  rw [cross_add_right, cross_add_right, cross_scale_right,
    cross_scale_right, cross_scale_right, crossV_self, hXY, hXZ,
    scale_scale]
  ext <;> simp [scale] <;> ring

theorem dot_comb3 (u X Y Z : V3) (dx dy dz : ℝ) :
    dot u (scale dx X + scale dy Y + scale dz Z)
      = dx * dot u X + dy * dot u Y + dz * dot u Z := by
  rw [dot_add_right, dot_add_right, dot_scale_right, dot_scale_right,
    dot_scale_right]

theorem normSq_lin2 (α β : ℝ) (u v : V3) (hu : normSq u = 1)
    (hv : normSq v = 1) (huv : dot u v = 0) :
    normSq (scale α u + scale β v) = α ^ 2 + β ^ 2 := by
  rw [normSq_add, normSq_scale, normSq_scale, dot_scale_left,
    dot_scale_right, hu, hv, huv]
  ring


/-- C7 (amended): for every context clearing the epsilon floor of
l2_normalize (normSq(c-b) >= 1e-12 and squared norm of the intermediate
cross product >= 1e-12, strengthening the claim's mere
nonzero/non-collinear condition), bond length l > 0, bond angle theta in
(0, pi) and arbitrary dihedral chi, recomputing the dihedral of the
placed 4-atom chain with getDihedral(a, b, c, nerf(a,b,c,l,theta,chi),
radian=True) succeeds and reproduces chi modulo 2*pi (equality in
Real.Angle), in exact real arithmetic. -/
theorem C7_dihedral_roundtrip (a b c : V3) (l theta chi : ℝ)
    (hx : (1e-12 : ℝ) ≤ normSq (c - b))
    (hz : (1e-12 : ℝ) ≤
      normSq (cross (l2_normalize (b - a)) (l2_normalize (c - b))))
    (hl : 0 < l) (ht0 : 0 < theta) (ht1 : theta < Real.pi) :
    ∃ r, getDihedral a b c (nerf a b c l theta chi) true = some r
      ∧ (r : Real.Angle) = (chi : Real.Angle) := by
  have hx0 : 0 < normSq (c - b) := lt_of_lt_of_le (by norm_num) hx
  have hsin : 0 < Real.sin theta := Real.sin_pos_of_pos_of_lt_pi ht0 ht1
  have hlsin : 0 < l * Real.sin theta := mul_pos hl hsin
  have hs2 : 0 < norm3 (c - b) := norm3_pos _ hx0
  obtain ⟨hX1, hZ1, hZX⟩ := frame_facts a b c hx hz
  have hY1 : normSq (frameY a b c) = 1 := by
    unfold frameY
    rw [normSq_cross, hX1, hZ1, hZX]
    norm_num
  have hYZ : dot (frameY a b c) (frameZ a b c) = 0 := dot_cross_left _ _
  have hZY : dot (frameZ a b c) (frameY a b c) = 0 := by
    rw [dot_comm]
    exact hYZ
  have hXZ0 : dot (frameX b c) (frameZ a b c) = 0 := by
    rw [dot_comm]
    exact hZX
  have hXY : cross (frameX b c) (frameY a b c) = frameZ a b c := by
    unfold frameY
    rw [cross_triple, show dot (frameX b c) (frameX b c) = 1 from hX1,
      hXZ0, scale_one]
    ext <;> simp [scale]
  have hXZ : cross (frameX b c) (frameZ a b c)
      = scale (-1) (frameY a b c) := cross_swap _ _
  have hZZ : dot (frameZ a b c) (frameZ a b c) = 1 := hZ1
  have ha2 : c - b = scale (norm3 (c - b)) (frameX b c) :=
    (scale_norm3_unitV _ hx0).symm
  have hD : nerf a b c l theta chi - c
      = scale (-l * Real.cos theta) (frameX b c)
        + scale (l * Real.sin theta * Real.cos chi) (frameY a b c)
        + scale (l * Real.sin theta * Real.sin chi) (frameZ a b c) := by
    rw [nerf_eq_nerfSpec a b c l theta chi hx hz]
    exact add_sub_cancel_left3 _ _
  have hv1 : frameZ a b c = unitV (cross (b - a) (c - b)) := by
    unfold frameZ frameX
    rw [show cross (b - a) (unitV (c - b))
        = scale (norm3 (c - b))⁻¹ (cross (b - a) (c - b)) from by
      show cross (b - a) (scale (norm3 (c - b))⁻¹ (c - b)) = _
      rw [cross_scale_right]]
    rw [unitV_scale_pos _ (inv_pos.mpr hs2)]
  have hcross2 : cross (c - b)
      (scale (-l * Real.cos theta) (frameX b c)
        + scale (l * Real.sin theta * Real.cos chi) (frameY a b c)
        + scale (l * Real.sin theta * Real.sin chi) (frameZ a b c))
      = scale (norm3 (c - b))
          (scale (l * Real.sin theta * Real.cos chi) (frameZ a b c)
           + scale (-(l * Real.sin theta * Real.sin chi))
               (frameY a b c)) := by
    conv_lhs => rw [ha2]
    rw [cross_scale_left, cross_comb3 _ _ _ _ _ _ hXY hXZ]
  have hcombSq : normSq
      (scale (l * Real.sin theta * Real.cos chi) (frameZ a b c)
       + scale (-(l * Real.sin theta * Real.sin chi)) (frameY a b c))
      = (l * Real.sin theta) ^ 2 := by
    rw [normSq_lin2 _ _ _ _ hZ1 hY1 hZY]
    rw [show (l * Real.sin theta * Real.cos chi) ^ 2
        + (-(l * Real.sin theta * Real.sin chi)) ^ 2
        = (l * Real.sin theta) ^ 2
            * (Real.cos chi ^ 2 + Real.sin chi ^ 2) from by ring]
    rw [Real.cos_sq_add_sin_sq, mul_one]
  have hnormCross : norm3 (cross (c - b)
      (scale (-l * Real.cos theta) (frameX b c)
        + scale (l * Real.sin theta * Real.cos chi) (frameY a b c)
        + scale (l * Real.sin theta * Real.sin chi) (frameZ a b c)))
      = norm3 (c - b) * (l * Real.sin theta) := by
    apply norm3_eq
    · rw [hcross2, normSq_scale, hcombSq]
      ring
    · exact mul_nonneg hs2.le hlsin.le
  have hv2 : unitV (cross (c - b)
      (scale (-l * Real.cos theta) (frameX b c)
        + scale (l * Real.sin theta * Real.cos chi) (frameY a b c)
        + scale (l * Real.sin theta * Real.sin chi) (frameZ a b c)))
      = scale (Real.cos chi) (frameZ a b c)
        + scale (-Real.sin chi) (frameY a b c) := by
    unfold unitV
    rw [hnormCross, hcross2, scale_scale, scale_add, scale_scale,
      scale_scale]
    have hprodne : norm3 (c - b) * (l * Real.sin theta) ≠ 0 :=
      ne_of_gt (mul_pos hs2 hlsin)
    rw [show (norm3 (c - b) * (l * Real.sin theta))⁻¹ * norm3 (c - b)
          * (l * Real.sin theta * Real.cos chi) = Real.cos chi from by
        rw [show (norm3 (c - b) * (l * Real.sin theta))⁻¹ * norm3 (c - b)
            * (l * Real.sin theta * Real.cos chi)
            = (norm3 (c - b) * (l * Real.sin theta))⁻¹
              * (norm3 (c - b) * (l * Real.sin theta)) * Real.cos chi
          from by ring]
        rw [inv_mul_cancel₀ hprodne, one_mul],
      show (norm3 (c - b) * (l * Real.sin theta))⁻¹ * norm3 (c - b)
          * (-(l * Real.sin theta * Real.sin chi)) = -Real.sin chi from by
        rw [show (norm3 (c - b) * (l * Real.sin theta))⁻¹ * norm3 (c - b)
            * (-(l * Real.sin theta * Real.sin chi))
            = (norm3 (c - b) * (l * Real.sin theta))⁻¹
              * (norm3 (c - b) * (l * Real.sin theta)) * (-Real.sin chi)
          from by ring]
        rw [inv_mul_cancel₀ hprodne, one_mul]]
  have hv2n : normSq (scale (Real.cos chi) (frameZ a b c)
      + scale (-Real.sin chi) (frameY a b c)) = 1 := by
    rw [normSq_lin2 _ _ _ _ hZ1 hY1 hZY]
    rw [show Real.cos chi ^ 2 + (-Real.sin chi) ^ 2
        = Real.cos chi ^ 2 + Real.sin chi ^ 2 from by ring]
    rw [Real.cos_sq_add_sin_sq]
  have hv1n : normSq (unitV (cross (b - a) (c - b))) = 1 := by
    rw [← hv1]
    exact hZ1
  have hdot12 : dot (unitV (cross (b - a) (c - b)))
      (scale (Real.cos chi) (frameZ a b c)
       + scale (-Real.sin chi) (frameY a b c)) = Real.cos chi := by
    rw [← hv1, dot_add_right, dot_scale_right, dot_scale_right, hZZ, hZY]
    ring
  have hdotA3 : dot (unitV (cross (b - a) (c - b)))
      (scale (-l * Real.cos theta) (frameX b c)
        + scale (l * Real.sin theta * Real.cos chi) (frameY a b c)
        + scale (l * Real.sin theta * Real.sin chi) (frameZ a b c))
      = l * Real.sin theta * Real.sin chi := by
    rw [← hv1, dot_comb3, hZX, hZY, hZZ]
    ring
  have hGD : getDihedral a b c (nerf a b c l theta chi) true
      = some (if Real.sign (l * Real.sin theta * Real.sin chi) = 0
          then Real.arccos (Real.cos chi)
          else Real.arccos (Real.cos chi)
            * Real.sign (l * Real.sin theta * Real.sin chi)) := by
    simp only [getDihedral]
    rw [hD, hv2, hdot12, hdotA3, hv1n, hv2n, one_mul, Real.sqrt_one,
      div_one]
    rw [if_pos ⟨Real.neg_one_le_cos chi, Real.cos_le_one chi⟩]
    rw [Option.map_some']
    norm_num
  have hsinsq : 1 - Real.cos chi ^ 2 = Real.sin chi ^ 2 := by
    have := Real.sin_sq_add_cos_sq chi
    linarith
  rcases lt_trichotomy (Real.sin chi) 0 with hneg | hzero | hpos
  · have hsgn : Real.sign (l * Real.sin theta * Real.sin chi) = -1 :=
      Real.sign_of_neg (mul_neg_of_pos_of_neg hlsin hneg)
    refine ⟨_, hGD, ?_⟩
    rw [hsgn, if_neg (by norm_num : ¬(-1 : ℝ) = 0)]
    have hcos : Real.cos (Real.arccos (Real.cos chi) * -1)
        = Real.cos chi := by
      rw [mul_neg_one, Real.cos_neg,
        Real.cos_arccos (Real.neg_one_le_cos chi) (Real.cos_le_one chi)]
    have hsin2 : Real.sin (Real.arccos (Real.cos chi) * -1)
        = Real.sin chi := by
      rw [mul_neg_one, Real.sin_neg, Real.sin_arccos, hsinsq,
        Real.sqrt_sq_eq_abs, abs_of_neg hneg]
      ring
    exact Real.Angle.cos_sin_inj hcos hsin2
  · have hsgn : Real.sign (l * Real.sin theta * Real.sin chi) = 0 := by
      rw [hzero, mul_zero, Real.sign_zero]
    refine ⟨_, hGD, ?_⟩
    rw [hsgn, if_pos rfl]
    have hcos : Real.cos (Real.arccos (Real.cos chi)) = Real.cos chi :=
      Real.cos_arccos (Real.neg_one_le_cos chi) (Real.cos_le_one chi)
    have hsin2 : Real.sin (Real.arccos (Real.cos chi)) = Real.sin chi := by
      rw [Real.sin_arccos, hsinsq, Real.sqrt_sq_eq_abs, hzero, abs_zero]
    exact Real.Angle.cos_sin_inj hcos hsin2
  · have hsgn : Real.sign (l * Real.sin theta * Real.sin chi) = 1 :=
      Real.sign_of_pos (mul_pos hlsin hpos)
    refine ⟨_, hGD, ?_⟩
    rw [hsgn, if_neg (by norm_num : ¬(1 : ℝ) = 0), mul_one]
    have hcos : Real.cos (Real.arccos (Real.cos chi)) = Real.cos chi :=
      Real.cos_arccos (Real.neg_one_le_cos chi) (Real.cos_le_one chi)
    have hsin2 : Real.sin (Real.arccos (Real.cos chi)) = Real.sin chi := by
      rw [Real.sin_arccos, hsinsq, Real.sqrt_sq_eq_abs, abs_of_pos hpos]
    exact Real.Angle.cos_sin_inj hcos hsin2


theorem C7_dihedral_roundtrip_witness :
    ∃ r, getDihedral ⟨0, 0, 0⟩ ⟨1, 0, 0⟩ ⟨1, 1, 0⟩
        (nerf ⟨0, 0, 0⟩ ⟨1, 0, 0⟩ ⟨1, 1, 0⟩ 1 (Real.pi / 2) (Real.pi / 2))
        true = some r
      ∧ (r : Real.Angle) = ((Real.pi / 2 : ℝ) : Real.Angle) := by
  apply C7_dihedral_roundtrip
  · rw [show (⟨1, 1, 0⟩ : V3) - ⟨1, 0, 0⟩ = ⟨0, 1, 0⟩ from by
      ext <;> norm_num]
    norm_num [normSq, dot]
  · have n0 : l2_normalize (⟨1, 0, 0⟩ : V3) = ⟨1, 0, 0⟩ := by
      rw [l2_normalize_eq _ 1 (by norm_num [normSq, dot]) (by norm_num)]
      ext <;> norm_num [scale]
    have n1 : l2_normalize (⟨0, 1, 0⟩ : V3) = ⟨0, 1, 0⟩ := by
      rw [l2_normalize_eq _ 1 (by norm_num [normSq, dot]) (by norm_num)]
      ext <;> norm_num [scale]
    rw [show (⟨1, 0, 0⟩ : V3) - ⟨0, 0, 0⟩ = ⟨1, 0, 0⟩ from by
        ext <;> norm_num,
      show (⟨1, 1, 0⟩ : V3) - ⟨1, 0, 0⟩ = ⟨0, 1, 0⟩ from by
        ext <;> norm_num,
      n0, n1,
      show cross (⟨1, 0, 0⟩ : V3) ⟨0, 1, 0⟩ = ⟨0, 0, 1⟩ from by
        ext <;> norm_num [cross]]
    norm_num [normSq, dot]
  · norm_num
  · exact div_pos Real.pi_pos (by norm_num)
  · linarith [Real.pi_pos]

/-- C7 counterexample: at the concrete input a = 0, b = (1,0,0),
c = (1,1e-9,0) (nonzero, non-collinear context as the claim requires),
l = 1, theta = pi/2, chi = pi/3, the recomputed dihedral r satisfies
cos r < 1/2 = cos(pi/3), so r is not congruent to chi modulo 2*pi: the
epsilon floor inside l2_normalize deforms the frame for the tiny bond
vector c - b, and getDihedral faithfully reports the deformed dihedral
of the placed points. -/
theorem C7_dihedral_roundtrip_counterexample :
    ∃ r, getDihedral ⟨0, 0, 0⟩ ⟨1, 0, 0⟩ ⟨1, 1e-9, 0⟩
        (nerf ⟨0, 0, 0⟩ ⟨1, 0, 0⟩ ⟨1, 1e-9, 0⟩ 1 (Real.pi / 2)
          (Real.pi / 3)) true = some r
      ∧ ¬((r : Real.Angle) = ((Real.pi / 3 : ℝ) : Real.Angle)) := by
  have e0 : (⟨1, 0, 0⟩ : V3) - ⟨0, 0, 0⟩ = ⟨1, 0, 0⟩ := by ext <;> norm_num
  have e1 : (⟨1, 1e-9, 0⟩ : V3) - ⟨1, 0, 0⟩ = ⟨0, 1e-9, 0⟩ := by
    ext <;> norm_num
  have n0 : l2_normalize (⟨1, 0, 0⟩ : V3) = ⟨1, 0, 0⟩ := by
    rw [l2_normalize_eq _ 1 (by norm_num [normSq, dot]) (by norm_num)]
    ext <;> norm_num [scale]
  have n1 : l2_normalize (⟨0, 1e-9, 0⟩ : V3) = ⟨0, 1e-3, 0⟩ := by
    rw [l2_normalize_small _ (by norm_num [normSq, dot])]
    ext <;> norm_num [scale]
  have c1 : cross (⟨1, 0, 0⟩ : V3) ⟨0, 1e-3, 0⟩ = ⟨0, 0, 1e-3⟩ := by
    ext <;> norm_num [cross]
  have n2 : l2_normalize (⟨0, 0, 1e-3⟩ : V3) = ⟨0, 0, 1⟩ := by
    rw [l2_normalize_eq _ 1e-3 (by norm_num [normSq, dot]) (by norm_num)]
    ext <;> norm_num [scale]
  have c2 : cross (⟨0, 0, 1⟩ : V3) ⟨0, 1e-3, 0⟩ = ⟨-1e-3, 0, 0⟩ := by
    ext <;> norm_num [cross]
  have hL : nerf ⟨0, 0, 0⟩ ⟨1, 0, 0⟩ ⟨1, 1e-9, 0⟩ 1 (Real.pi / 2)
      (Real.pi / 3) = ⟨1 - 5e-4, 1e-9, Real.sqrt 3 / 2⟩ := by
    simp only [nerf]
    rw [e0, e1, n0, n1, c1, n2, c2, Real.cos_pi_div_two,
      Real.sin_pi_div_two, Real.cos_pi_div_three, Real.sin_pi_div_three]
    ext <;> norm_num [scale] <;> ring
  have hd : (⟨1 - 5e-4, 1e-9, Real.sqrt 3 / 2⟩ : V3) - ⟨1, 1e-9, 0⟩
      = ⟨-5e-4, 0, Real.sqrt 3 / 2⟩ := by
    ext <;> norm_num
  have g1 : cross (⟨1, 0, 0⟩ : V3) ⟨0, 1e-9, 0⟩ = ⟨0, 0, 1e-9⟩ := by
    ext <;> norm_num [cross]
  have hu1 : unitV (⟨0, 0, 1e-9⟩ : V3) = ⟨0, 0, 1⟩ := by
    rw [unitV_eq _ 1e-9 (by norm_num [normSq, dot]) (by norm_num)]
    ext <;> norm_num [scale]
  have g2 : cross (⟨0, 1e-9, 0⟩ : V3) ⟨-5e-4, 0, Real.sqrt 3 / 2⟩
      = ⟨1e-9 * (Real.sqrt 3 / 2), 0, 5e-13⟩ := by
    ext <;> norm_num [cross]
  have hSw : normSq (⟨1e-9 * (Real.sqrt 3 / 2), 0, 5e-13⟩ : V3)
      = 7.5e-19 + 2.5e-25 := by
    simp only [normSq, dot]
    rw [show 1e-9 * (Real.sqrt 3 / 2) * (1e-9 * (Real.sqrt 3 / 2))
        = Real.sqrt 3 * Real.sqrt 3 * 2.5e-19 from by ring]
    rw [Real.mul_self_sqrt (by norm_num : (0 : ℝ) ≤ 3)]
    norm_num
  have hSpos : 0 < normSq (⟨1e-9 * (Real.sqrt 3 / 2), 0, 5e-13⟩ : V3) := by
    rw [hSw]
    norm_num
  have hv2n : normSq (unitV (⟨1e-9 * (Real.sqrt 3 / 2), 0, 5e-13⟩ : V3))
      = 1 := unitV_normSq _ hSpos
  have hv1n : normSq (⟨0, 0, 1⟩ : V3) = 1 := by norm_num [normSq, dot]
  have hdotv2 : dot ⟨0, 0, 1⟩
      (unitV (⟨1e-9 * (Real.sqrt 3 / 2), 0, 5e-13⟩ : V3))
      = (norm3 (⟨1e-9 * (Real.sqrt 3 / 2), 0, 5e-13⟩ : V3))⁻¹ * 5e-13 := by
    unfold unitV
    rw [dot_scale_right]
    congr 1
    norm_num [dot]
  have hn3 : (1e-12 : ℝ)
      < norm3 (⟨1e-9 * (Real.sqrt 3 / 2), 0, 5e-13⟩ : V3) := by
    unfold norm3
    rw [show (1e-12 : ℝ) = Real.sqrt (1e-24) from by
      rw [show (1e-24 : ℝ) = (1e-12) ^ 2 from by norm_num,
        Real.sqrt_sq (by norm_num : (0 : ℝ) ≤ 1e-12)]]
    apply Real.sqrt_lt_sqrt (by norm_num)
    rw [hSw]
    norm_num
  have hn3pos : 0 < norm3 (⟨1e-9 * (Real.sqrt 3 / 2), 0, 5e-13⟩ : V3) :=
    lt_trans (by norm_num) hn3
  have hraw0 : (0 : ℝ)
      ≤ (norm3 (⟨1e-9 * (Real.sqrt 3 / 2), 0, 5e-13⟩ : V3))⁻¹ * 5e-13 :=
    mul_nonneg (inv_nonneg.mpr (norm3_nonneg _)) (by norm_num)
  have hrawlt : (norm3 (⟨1e-9 * (Real.sqrt 3 / 2), 0, 5e-13⟩ : V3))⁻¹
      * 5e-13 < 1 / 2 := by
    rw [inv_mul_eq_div, div_lt_iff hn3pos]
    nlinarith [hn3]
  have hraw1 : (norm3 (⟨1e-9 * (Real.sqrt 3 / 2), 0, 5e-13⟩ : V3))⁻¹
      * 5e-13 ≤ 1 := le_trans hrawlt.le (by norm_num)
  have hdp : dot (⟨0, 0, 1⟩ : V3) ⟨-5e-4, 0, Real.sqrt 3 / 2⟩
      = Real.sqrt 3 / 2 := by
    norm_num [dot]
  have hsgn : Real.sign (Real.sqrt 3 / 2) = 1 :=
    Real.sign_of_pos (div_pos (Real.sqrt_pos.mpr (by norm_num))
      (by norm_num))
  refine ⟨Real.arccos
      ((norm3 (⟨1e-9 * (Real.sqrt 3 / 2), 0, 5e-13⟩ : V3))⁻¹ * 5e-13) * 1,
      ?_, ?_⟩
  · simp only [getDihedral]
    rw [hL, e0, e1, hd, g1, hu1, g2, hdotv2, hv1n, hv2n, hdp, hsgn,
      one_mul, Real.sqrt_one, div_one]
    rw [if_pos ⟨le_trans (by norm_num) hraw0, hraw1⟩]
    rw [Option.map_some']
    norm_num
  · intro hEq
    have hc := congrArg Real.Angle.cos hEq
    rw [Real.Angle.cos_coe, Real.Angle.cos_coe, mul_one,
      Real.cos_arccos (le_trans (by norm_num) hraw0) hraw1,
      Real.cos_pi_div_three] at hc
    linarith [hrawlt]

end
